import Mathlib

/-!
Shallow embedding of `qubovert/problems/benchmarking/_alternating_sector_chain.py`
(class `AlternatingSectorChain`) together with the pieces of `qubovert.utils`
that the class uses (`IsingField`, `IsingCoupling`, and the generic
Ising-to-QUBO conversion behind `to_qubo`), which are not part of the given
sources and are therefore modelled from the specification.

Python integers are modelled by `Int`; Python's floor division `//` by
`Int.fdiv` and `%` (with the positive divisors used here) by `Int.emod`;
tuples/lists of spins by `List Int`; dictionaries by association lists.
-/

/-- Modelled from the spec: the coupling containers (`IsingCoupling`,
`QUBOMatrix`) of `qubovert.utils` are absent from the sources.  Per the spec,
pair keys are always stored in a single canonical (ascending) order, so no
pair appears twice under different orderings. -/
def canonKey (k : Int × Int) : Int × Int :=
  if k.2 < k.1 then (k.2, k.1) else (k.1, k.2)

/-- A sparse coupling mapping: association list from a canonical pair of
variable indices to a numeric weight. -/
abbrev Coupling : Type := List ((Int × Int) × Int)

/-- Modelled from the spec: writing `J[key] = value` into a coupling
container.  The key is canonicalised; a fresh build starts from an empty
container and the chain builder intends overwrite semantics for plain
assignment, so an existing entry is replaced. -/
def setEntry : Coupling → (Int × Int) → Int → Coupling
  | [], k, v => [(canonKey k, v)]
  | (k', v') :: rest, k, v =>
      if k' = canonKey k then (k', v) :: rest else (k', v') :: setEntry rest k v

/-- Modelled from the spec: accumulating `J[key] += value`, used when an
objective is re-expanded term by term into a target container (adding a
weight to an existing key accumulates by numeric addition). -/
def addEntry : Coupling → (Int × Int) → Int → Coupling
  | [], k, v => [(canonKey k, v)]
  | (k', v') :: rest, k, v =>
      if k' = canonKey k then (k', v' + v) :: rest else (k', v') :: addEntry rest k v

/-- Modelled from the spec: reading `J[key]` from a coupling container; a
missing key is treated as weight 0. -/
def getEntry : Coupling → (Int × Int) → Int
  | [], _ => 0
  | (k', v) :: rest, k => if k' = canonKey k then v else getEntry rest k

/-- The keys present in a coupling container. -/
def couplingKeys (J : Coupling) : List (Int × Int) :=
  J.map Prod.fst

/-- An `IsingField` maps single variable indices to weights.  The chain
builder never writes to it, so only the empty field occurs here. -/
abbrev IsingField : Type := List (Int × Int)

/-- The `AlternatingSectorChain` instance state: `__init__` stores
`self._N`, `self._chain_length`, and the two strengths NEGATED
(`self._min_strength = -min_strength`, `self._max_strength = -max_strength`),
from `_alternating_sector_chain.py` lines 86-87. -/
structure AlternatingSectorChain where
  N : Int
  chain_length : Int
  min_strength : Int
  max_strength : Int
deriving DecidableEq, Repr

/-- `AlternatingSectorChain.__init__` (lines 86-93): store the fields, then
raise `ValueError` when `min_strength < 0 or max_strength < 0`, elif
`num_binary_variables < 1`, elif `chain_length < 2`. -/
def init (num_binary_variables chain_length min_strength max_strength : Int) :
    Except String AlternatingSectorChain :=
  if min_strength < 0 ∨ max_strength < 0 then
    Except.error "Coupling strengths must be positive"
  else if num_binary_variables < 1 then
    Except.error "Must have at least 1 binary variable"
  else if chain_length < 2 then
    Except.error "Chain length must be at least 2"
  else
    Except.ok ⟨num_binary_variables, chain_length, -min_strength, -max_strength⟩

/-- The strength written for chain position `q` in `to_ising` (lines
158-169): `self._min_strength if (q // self._chain_length) % 2 else
self._max_strength`.  Python truthiness of an int is `≠ 0`; `//` is floor
division (`Int.fdiv`) and `%` with divisor 2 matches `Int.emod`. -/
def strengthAt (c : AlternatingSectorChain) (q : Int) : Int :=
  if Int.emod (Int.fdiv q c.chain_length) 2 ≠ 0 then c.min_strength
  else c.max_strength

/-- `AlternatingSectorChain.to_ising` (lines 107-171): start from an empty
field, empty coupling and offset 0; for `q in range(self._N - 1)` set
`J[(q, q+1)]`; if `pbc` also set `J[(self._N - 1, 0)]`; return
`(h, J, offset)`. -/
def to_ising (c : AlternatingSectorChain) (pbc : Bool) :
    IsingField × Coupling × Int :=
  let J : Coupling :=
    (List.range (c.N - 1).toNat).foldl
      (fun (J : Coupling) (q : Nat) =>
        setEntry J ((q : Int), (q : Int) + 1) (strengthAt c (q : Int))) []
  let J : Coupling :=
    if pbc then setEntry J (c.N - 1, 0) (strengthAt c (c.N - 1)) else J
  (([] : IsingField), J, 0)

/-- `AlternatingSectorChain.convert_solution` (line 202) on a sequence:
`tuple(x if x else -1 for x in solution)`; an int is truthy iff nonzero. -/
def convert_solution (solution : List Int) : List Int :=
  solution.map (fun x => if x ≠ 0 then x else -1)

/-- Key order on dictionary items, as used by Python's
`sorted(solution.items())` (keys are distinct, so the lexicographic tuple
order reduces to the key order). -/
def itemLE (p q : Int × Int) : Prop := p.1 ≤ q.1

instance : DecidableRel itemLE := fun p q => by
  unfold itemLE
  infer_instance

/-- `AlternatingSectorChain.convert_solution` (lines 200-202) on a dict:
`solution = tuple(v for k, v in sorted(solution.items()))` and then the
element-wise conversion. -/
def convert_solution_dict (solution : List (Int × Int)) : List Int :=
  convert_solution ((solution.insertionSort itemLE).map Prod.snd)

/-- `AlternatingSectorChain.is_solution_valid` (lines 225-232) on a
sequence: `all(x == 1 for x in solution) or all(x != 1 for x in solution)`. -/
def is_solution_valid (solution : List Int) : Bool :=
  solution.all (fun x => x == 1) || solution.all (fun x => x != 1)

/-- `is_solution_valid` on a dict input first applies `convert_solution`
(lines 225-226). -/
def is_solution_valid_dict (solution : List (Int × Int)) : Bool :=
  is_solution_valid (convert_solution_dict solution)

/-- Modelled from the spec: the element-wise binary-to-spin transform of
`qubovert.utils`, absent from the sources: `to_spin(x) = 1 if x == 1 else -1`. -/
def to_spin (x : Int) : Int :=
  if x = 1 then 1 else -1

/-- Modelled from the spec: the generic Ising-to-QUBO re-expansion behind
`Problem.to_qubo`, absent from the sources.  Every monomial of the spin
objective is re-expanded by substituting `z = 2x - 1` (the inverse of the
binary-to-spin transform on `{0,1}`): a coupling `v·z_i·z_j` contributes
`4v` to `Q[(i,j)]`, `-2v` to each of `Q[(i,i)]`, `Q[(j,j)]` and `v` to the
offset; a field term `v·z_i` contributes `2v` to `Q[(i,i)]` and `-v` to the
offset.  Contributions accumulate additively in the target container. -/
def jStep (acc : Coupling × Int) (e : (Int × Int) × Int) : Coupling × Int :=
  (addEntry
    (addEntry
      (addEntry acc.1 (e.1.1, e.1.2) (4 * e.2))
      (e.1.1, e.1.1) (-(2 * e.2)))
    (e.1.2, e.1.2) (-(2 * e.2)),
   acc.2 + e.2)

/-- Modelled from the spec: the re-expansion of one Ising field term
`v·z_i` into the binary domain: `2v` into `Q[(i,i)]` and `-v` into the
offset. -/
def hStep (acc : Coupling × Int) (e : Int × Int) : Coupling × Int :=
  (addEntry acc.1 (e.1, e.1) (2 * e.2), acc.2 - e.2)

/-- Modelled from the spec: re-expansion of a whole Ising objective into a
binary coupling container and offset, term by term. -/
def quboOfIsing (h : IsingField) (J : Coupling) : Coupling × Int :=
  h.foldl hStep (J.foldl jStep ([], 0))

/-- Modelled from the spec: `to_qubo` returns the binary-domain coupling
mapping and offset obtained by re-expanding the Ising form, preserving the
energy; the original Ising offset is carried into the QUBO offset. -/
def to_qubo (c : AlternatingSectorChain) (pbc : Bool) : Coupling × Int :=
  let r := to_ising c pbc
  let q := quboOfIsing r.1 r.2.1
  (q.1, q.2 + r.2.2)

/-- QUBO energy of an assignment `x` (without the offset):
`sum_{(i,j)} Q[(i,j)] * x i * x j`; a diagonal key `(i,i)` is the linear
term, since `x*x = x` on binary values. -/
def quboEnergy (Q : Coupling) (x : Int → Int) : Int :=
  (Q.map (fun e => e.2 * x e.1.1 * x e.1.2)).sum

/-- Ising energy of a spin assignment `z` (without the offset):
`sum_{(i,j)} J[(i,j)] * z i * z j + sum_i h[i] * z i`. -/
def isingEnergy (h : IsingField) (J : Coupling) (z : Int → Int) : Int :=
  (J.map (fun e => e.2 * z e.1.1 * z e.1.2)).sum +
    (h.map (fun e => e.2 * z e.1)).sum

instance : IsTotal (Int × Int) itemLE :=
  ⟨fun p q => le_total p.1 q.1⟩

instance : IsTrans (Int × Int) itemLE :=
  ⟨fun _ _ _ h h' => le_trans h h'⟩

/-- Strict key order on dictionary items: used to show that sorting items
with distinct keys has a unique result. -/
def itemLT (p q : Int × Int) : Prop := p.1 < q.1

example : init 6 3 1 5 = Except.ok ⟨6, 3, -1, -5⟩ := by rfl
example :
    to_ising ⟨6, 3, -1, -5⟩ false =
      ([], [((0, 1), -5), ((1, 2), -5), ((2, 3), -5), ((3, 4), -1), ((4, 5), -1)], 0) := by
  decide
example :
    to_ising ⟨6, 3, -1, -5⟩ true =
      ([], [((0, 1), -5), ((1, 2), -5), ((2, 3), -5), ((3, 4), -1), ((4, 5), -1),
        ((0, 5), -1)], 0) := by
  decide
example : convert_solution [0, 0, 1, 0, 1] = [-1, -1, 1, -1, 1] := by decide
example : convert_solution [-1, -1, 1, -1, 1] = [-1, -1, 1, -1, 1] := by decide
example : is_solution_valid [0, 0, 0] = true := by decide
example : is_solution_valid [1, 1, 1] = true := by decide
example : is_solution_valid [0, 1, 0] = false := by decide
example : is_solution_valid [] = true := by decide
example : is_solution_valid [0, -1, 7] = true := by decide

/-- Claim C1 (counterexample): for `AlternatingSectorChain(6, 3, 1, 5)` the
claim asserts the coupling at `(0, 1)` is `5`; the code stores the negated
maximum strength, so the value is `-5`. -/
theorem C1_scenario_counterexample :
    init 6 3 1 5 = Except.ok ⟨6, 3, -1, -5⟩ ∧
    getEntry (to_ising ⟨6, 3, -1, -5⟩ false).2.1 (0, 1) = -5 ∧
    ¬ ((-5 : Int) = 5) := by
  refine ⟨rfl, by decide, by decide⟩

/-- Claim C1 (amended): for `AlternatingSectorChain(6, 3, 1, 5)`, `to_ising`
with the periodic flag false returns an empty field, offset 0, and exactly
the couplings `{(0,1): -5, (1,2): -5, (2,3): -5, (3,4): -1, (4,5): -1}`;
with the periodic flag true it additionally contains the wraparound
coupling between spins 5 and 0 with value `-1`, stored under the canonical
ascending key `(0, 5)`. -/
theorem C1_scenario_amended :
    init 6 3 1 5 = Except.ok ⟨6, 3, -1, -5⟩ ∧
    to_ising ⟨6, 3, -1, -5⟩ false =
      ([], [((0, 1), -5), ((1, 2), -5), ((2, 3), -5), ((3, 4), -1), ((4, 5), -1)], 0) ∧
    to_ising ⟨6, 3, -1, -5⟩ true =
      ([], [((0, 1), -5), ((1, 2), -5), ((2, 3), -5), ((3, 4), -1), ((4, 5), -1),
        ((0, 5), -1)], 0) ∧
    getEntry (to_ising ⟨6, 3, -1, -5⟩ true).2.1 (5, 0) = -1 := by
  refine ⟨rfl, by decide, by decide, by decide⟩

/-- Claim C4: `is_solution_valid` returns true on the all-zero and all-one
vectors of any length `N ≥ 1`, and false on every vector containing both a
0 and a 1. -/
theorem C4_all_equal_valid (N : Nat) (_hN : 1 ≤ N) :
    is_solution_valid (List.replicate N 0) = true ∧
    is_solution_valid (List.replicate N 1) = true ∧
    ∀ l : List Int, (0 : Int) ∈ l → (1 : Int) ∈ l → is_solution_valid l = false := by
  refine ⟨?_, ?_, ?_⟩
  · simp [is_solution_valid, List.all_eq_true, List.mem_replicate]
  · simp [is_solution_valid, List.all_eq_true, List.mem_replicate]
  · intro l h0 h1
    simp only [is_solution_valid, Bool.or_eq_false_iff, List.all_eq_false]
    exact ⟨⟨0, h0, by decide⟩, ⟨1, h1, by decide⟩⟩

/-- Witness for C4 at `N = 3` and the vector `[0, 1]`. -/
theorem C4_all_equal_valid_witness :
    is_solution_valid (List.replicate 3 0) = true ∧
    is_solution_valid (List.replicate 3 1) = true ∧
    is_solution_valid [0, 1] = false := by
  obtain ⟨h1, h2, h3⟩ := C4_all_equal_valid 3 (by decide)
  exact ⟨h1, h2, h3 [0, 1] (by decide) (by decide)⟩

/-- Claim C5: on a solution whose entries are spins (`+1` or `-1`),
`is_solution_valid` returns true iff every spin equals `+1` or every spin
equals `-1`. -/
theorem C5_valid_iff_constant (l : List Int) (hdom : ∀ x ∈ l, x = 1 ∨ x = -1) :
    is_solution_valid l = true ↔ (∀ x ∈ l, x = 1) ∨ (∀ x ∈ l, x = -1) := by
  simp only [is_solution_valid, Bool.or_eq_true, List.all_eq_true, beq_iff_eq,
    bne_iff_ne]
  constructor
  · rintro (h | h)
    · exact Or.inl h
    · refine Or.inr fun x hx => ?_
      rcases hdom x hx with h1 | h1
      · exact absurd h1 (h x hx)
      · exact h1
  · rintro (h | h)
    · exact Or.inl h
    · refine Or.inr fun x hx => ?_
      rw [h x hx]
      decide

/-- Witness for C5 at the spin vector `[-1, -1]`. -/
theorem C5_valid_iff_constant_witness :
    is_solution_valid [-1, -1] = true ↔
      (∀ x ∈ ([-1, -1] : List Int), x = 1) ∨ (∀ x ∈ ([-1, -1] : List Int), x = -1) :=
  C5_valid_iff_constant [-1, -1] (by decide)

/-- Claim C7: `convert_solution` is idempotent, and a binary raw vector and
its equivalent spin raw vector (each 0 replaced by -1) convert to the same
native output. -/
theorem C7_idempotent_and_binary_spin_agree :
    (∀ l : List Int, convert_solution (convert_solution l) = convert_solution l) ∧
    (∀ l : List Int, (∀ x ∈ l, x = 0 ∨ x = 1) →
      convert_solution l = convert_solution (l.map fun x => if x = 0 then -1 else x)) := by
  constructor
  · intro l
    simp only [convert_solution, List.map_map]
    refine List.map_congr_left fun x _ => ?_
    by_cases h : x = 0 <;> simp [h, Function.comp]
  · intro l hl
    simp only [convert_solution, List.map_map]
    refine List.map_congr_left fun x hx => ?_
    rcases hl x hx with h | h <;> simp [h, Function.comp]

/-- Witness for C7 at the binary vector `[0, 1]`. -/
theorem C7_idempotent_witness :
    convert_solution (convert_solution [0, 1]) = convert_solution [0, 1] ∧
    convert_solution [0, 1] =
      convert_solution ([0, 1].map fun x => if x = 0 then -1 else x) := by
  obtain ⟨h1, h2⟩ := C7_idempotent_and_binary_spin_agree
  exact ⟨h1 [0, 1], h2 [0, 1] (by decide)⟩

/-- Claim C8 (code evaluation): the constructor raises on a negative
strength, on `num_binary_variables < 1` and on `chain_length < 2`, but it
ACCEPTS a zero strength (`min_strength = 0`) and returns an instance,
although its own documentation requires `int > 0` and its error message
says strengths must be positive: the check on line 88 is `< 0`, not `<= 0`. -/
theorem C8_zero_strength_accepted :
    init 6 3 0 5 = Except.ok ⟨6, 3, 0, -5⟩ ∧
    init 6 3 (-1) 5 = Except.error "Coupling strengths must be positive" ∧
    init 6 3 1 (-5) = Except.error "Coupling strengths must be positive" ∧
    init 0 3 1 5 = Except.error "Must have at least 1 binary variable" ∧
    init 6 1 1 5 = Except.error "Chain length must be at least 2" := by
  refine ⟨rfl, rfl, rfl, rfl, rfl⟩

/-- Claim C9 (counterexample): `convert_solution` and `is_solution_valid`
perform no length or domain validation.  On input `[5, 7, 0]` (wrong length
for the 6-variable instance, values outside both `{0,1}` and `{-1,1}`)
`convert_solution` returns a normal tuple, silently coercing `0` to `-1`
and passing `5` and `7` through, and `is_solution_valid` even reports the
out-of-domain input as valid (it contains no `1`); no error is raised. -/
theorem C9_no_validation_counterexample :
    init 6 3 1 5 = Except.ok ⟨6, 3, -1, -5⟩ ∧
    convert_solution [5, 7, 0] = [5, 7, -1] ∧
    is_solution_valid [5, 7, 0] = true := by
  refine ⟨rfl, by decide, by decide⟩

/-- Claim C9 (amended): `convert_solution` and `is_solution_valid` accept
every raw sequence, of any length and with any integer values, without
raising: `convert_solution` maps 0 to -1 and every other value to itself,
and `is_solution_valid` just tests all-equal-to-1 or all-different-from-1. -/
theorem C9_total_no_validation (l : List Int) :
    convert_solution l = l.map (fun x => if x = 0 then -1 else x) ∧
    is_solution_valid l =
      (l.all (fun x => x == 1) || l.all (fun x => x != 1)) := by
  constructor
  · refine List.map_congr_left fun x _ => ?_
    by_cases h : x = 0 <;> simp [h]
  · rfl

/-- Claim C10: every sequence containing no element equal to 1 — including
the empty sequence — is accepted by `is_solution_valid`. -/
theorem C10_no_one_is_valid (l : List Int) (h : ∀ x ∈ l, x ≠ 1) :
    is_solution_valid l = true ∧ is_solution_valid ([] : List Int) = true := by
  refine ⟨?_, by decide⟩
  simp only [is_solution_valid, Bool.or_eq_true, List.all_eq_true, bne_iff_ne]
  exact Or.inr h

/-- Witness for C10 at the mixed vector `[0, -1, 7]`. -/
theorem C10_no_one_is_valid_witness :
    is_solution_valid [0, -1, 7] = true ∧ is_solution_valid ([] : List Int) = true :=
  C10_no_one_is_valid [0, -1, 7] (by decide)

/-- Sorting two permutations of the same item list (with distinct keys) by
key gives the same list. -/
lemma insertionSort_eq_of_perm (d₁ d₂ : List (Int × Int)) (hp : d₁.Perm d₂)
    (hk : (d₁.map Prod.fst).Nodup) :
    d₁.insertionSort itemLE = d₂.insertionSort itemLE := by
  haveI : IsAntisymm (Int × Int) itemLT :=
    ⟨fun a b h h' => absurd (lt_trans h h') (lt_irrefl _)⟩
  have hperm : (d₁.insertionSort itemLE).Perm (d₂.insertionSort itemLE) :=
    (List.perm_insertionSort itemLE d₁).trans
      (hp.trans (List.perm_insertionSort itemLE d₂).symm)
  have strict : ∀ d : List (Int × Int), (d.map Prod.fst).Nodup →
      List.Sorted itemLT (d.insertionSort itemLE) := by
    intro d hd
    have hs : List.Sorted itemLE (d.insertionSort itemLE) :=
      List.sorted_insertionSort itemLE d
    have hnd : ((d.insertionSort itemLE).map Prod.fst).Nodup :=
      (((List.perm_insertionSort itemLE d).map Prod.fst).nodup_iff).mpr hd
    have hne : (d.insertionSort itemLE).Pairwise fun p q => p.1 ≠ q.1 :=
      List.pairwise_map.mp hnd
    exact (hs.and hne).imp fun h => lt_of_le_of_ne h.1 h.2
  have hk₂ : (d₂.map Prod.fst).Nodup := ((hp.map Prod.fst).nodup_iff).mp hk
  exact List.eq_of_perm_of_sorted hperm (strict d₁ hk) (strict d₂ hk₂)

/-- Claim C6: `convert_solution` maps 0 to -1 and keeps every other element;
on a mapping input it first orders the entries by key (the sort is a
key-sorted permutation of the items) and the result is invariant under
reordering of the mapping's items. -/
theorem C6_convert_solution_contract :
    (∀ l : List Int, convert_solution l = l.map fun x => if x = 0 then -1 else x) ∧
    (∀ d : List (Int × Int), convert_solution_dict d =
        ((d.insertionSort itemLE).map Prod.snd).map fun x => if x = 0 then -1 else x) ∧
    (∀ d : List (Int × Int),
        (d.insertionSort itemLE).Perm d ∧ List.Sorted itemLE (d.insertionSort itemLE)) ∧
    (∀ d₁ d₂ : List (Int × Int), d₁.Perm d₂ → (d₁.map Prod.fst).Nodup →
        convert_solution_dict d₁ = convert_solution_dict d₂) := by
  have hmap : ∀ l : List Int,
      convert_solution l = l.map fun x => if x = 0 then -1 else x := by
    intro l
    refine List.map_congr_left fun x _ => ?_
    by_cases h : x = 0 <;> simp [h]
  refine ⟨hmap, fun d => hmap _, ?_, ?_⟩
  · exact fun d => ⟨List.perm_insertionSort itemLE d, List.sorted_insertionSort itemLE d⟩
  · intro d₁ d₂ hp hk
    unfold convert_solution_dict
    rw [insertionSort_eq_of_perm d₁ d₂ hp hk]

/-- Witness for C6 at the sequence `[0, 3]` and the two item orders of the
mapping `{0: 0, 1: 7}`. -/
theorem C6_convert_solution_witness :
    convert_solution [0, 3] = ([0, 3].map fun x => if x = 0 then -1 else x) ∧
    convert_solution_dict [(1, 7), (0, 0)] = convert_solution_dict [(0, 0), (1, 7)] := by
  obtain ⟨h1, _h2, _h3, h4⟩ := C6_convert_solution_contract
  exact ⟨h1 [0, 3], h4 [(1, 7), (0, 0)] [(0, 0), (1, 7)] (by decide) (by decide)⟩

example : convert_solution_dict [(1, 7), (0, 0)] = [-1, 7] := by decide
example : is_solution_valid_dict [(1, 1), (0, 1)] = true := by decide

lemma canonKey_pair (a : Int) : canonKey (a, a + 1) = (a, a + 1) := by
  simp only [canonKey]
  rw [if_neg]
  simp only [not_lt]
  omega

lemma canonKey_wrap (n : Int) (hn : 1 ≤ n) :
    canonKey (n - 1, 0) = (0, n - 1) := by
  simp only [canonKey]
  rcases lt_or_eq_of_le hn with h | h
  · rw [if_pos]
    simpa using by omega
  · rw [if_neg]
    · simp only [Prod.mk.injEq]
      omega
    · simp only [not_lt]
      omega

lemma setEntry_of_not_mem (J : Coupling) (k : Int × Int) (v : Int)
    (h : canonKey k ∉ couplingKeys J) :
    setEntry J k v = J ++ [(canonKey k, v)] := by
  induction J with
  | nil => rfl
  | cons e rest ih =>
      obtain ⟨k', v'⟩ := e
      simp only [couplingKeys, List.map_cons, List.mem_cons, not_or] at h
      simp only [setEntry, if_neg (Ne.symm h.1), List.cons_append]
      rw [ih]
      intro hm
      exact h.2 hm

lemma getEntry_append_of_not_mem (J₁ J₂ : Coupling) (k : Int × Int)
    (h : canonKey k ∉ couplingKeys J₁) :
    getEntry (J₁ ++ J₂) k = getEntry J₂ k := by
  induction J₁ with
  | nil => rfl
  | cons e rest ih =>
      obtain ⟨k', v'⟩ := e
      simp only [couplingKeys, List.map_cons, List.mem_cons, not_or] at h
      simp only [List.cons_append, getEntry, if_neg (Ne.symm h.1)]
      exact ih h.2

lemma getEntry_append_of_mem (J₁ J₂ : Coupling) (k : Int × Int)
    (h : canonKey k ∈ couplingKeys J₁) :
    getEntry (J₁ ++ J₂) k = getEntry J₁ k := by
  induction J₁ with
  | nil => simp [couplingKeys] at h
  | cons e rest ih =>
      obtain ⟨k', v'⟩ := e
      by_cases hk : k' = canonKey k
      · simp [List.cons_append, getEntry, hk]
      · simp only [couplingKeys, List.map_cons, List.mem_cons] at h
        rcases h with h | h
        · exact absurd h.symm hk
        · simp only [List.cons_append, getEntry, if_neg hk]
          exact ih h

lemma getEntry_setEntry_same (J : Coupling) (k k' : Int × Int) (v : Int)
    (h : canonKey k' = canonKey k) :
    getEntry (setEntry J k v) k' = v := by
  induction J with
  | nil => simp [setEntry, getEntry, h]
  | cons e rest ih =>
      obtain ⟨k₀, v₀⟩ := e
      by_cases hk : k₀ = canonKey k
      · simp [setEntry, getEntry, hk, h]
      · simp only [setEntry, if_neg hk, getEntry]
        rw [if_neg, ih]
        rw [h]
        exact hk

lemma getEntry_setEntry_ne (J : Coupling) (k k' : Int × Int) (v : Int)
    (h : canonKey k' ≠ canonKey k) :
    getEntry (setEntry J k v) k' = getEntry J k' := by
  induction J with
  | nil =>
      simp only [setEntry, getEntry]
      rw [if_neg (Ne.symm h)]
  | cons e rest ih =>
      obtain ⟨k₀, v₀⟩ := e
      by_cases hk : k₀ = canonKey k
      · subst hk
        simp only [setEntry, if_pos rfl, getEntry]
        rw [if_neg (fun hh => h hh.symm), if_neg (fun hh => h hh.symm)]
      · simp only [setEntry, if_neg hk, getEntry, ih]

lemma couplingKeys_setEntry (J : Coupling) (k : Int × Int) (v : Int) :
    ∀ k' ∈ couplingKeys (setEntry J k v), k' ∈ couplingKeys J ∨ k' = canonKey k := by
  induction J with
  | nil =>
      intro k' hk'
      simp [setEntry, couplingKeys] at hk'
      exact Or.inr hk'
  | cons e rest ih =>
      obtain ⟨k₀, v₀⟩ := e
      intro k' hk'
      by_cases hk : k₀ = canonKey k
      · simp only [setEntry, if_pos hk, couplingKeys, List.map_cons, List.mem_cons] at hk'
        rcases hk' with h | h
        · exact Or.inl (by simp [couplingKeys, h])
        · exact Or.inl (by simp [couplingKeys]; exact Or.inr (by simpa [couplingKeys] using h))
      · simp only [setEntry, if_neg hk, couplingKeys, List.map_cons, List.mem_cons] at hk'
        rcases hk' with h | h
        · exact Or.inl (by simp [couplingKeys, h])
        · rcases ih k' (by simpa [couplingKeys] using h) with h' | h'
          · exact Or.inl (by simp [couplingKeys] at h' ⊢; exact Or.inr h')
          · exact Or.inr h'

lemma pair_not_mem_loopKeys (f : Int → Int) (m : Nat) :
    ((m : Int), (m : Int) + 1) ∉
      couplingKeys
        ((List.range m).map fun (q : Nat) => (((q : Int), (q : Int) + 1), f (q : Int))) := by
  intro h
  simp only [couplingKeys, List.map_map, List.mem_map, Function.comp, List.mem_range,
    Prod.mk.injEq] at h
  obtain ⟨q, hq, h1, _⟩ := h
  omega

lemma chainLoop_eq (f : Int → Int) : ∀ m : Nat,
    (List.range m).foldl
        (fun (J : Coupling) (q : Nat) =>
          setEntry J ((q : Int), (q : Int) + 1) (f (q : Int))) [] =
      (List.range m).map fun (q : Nat) => (((q : Int), (q : Int) + 1), f (q : Int)) := by
  intro m
  induction m with
  | zero => rfl
  | succ m ih =>
      rw [List.range_succ, List.foldl_append, List.map_append, ih, List.foldl_cons,
        List.foldl_nil, List.map_cons, List.map_nil]
      rw [setEntry_of_not_mem]
      · rw [canonKey_pair]
      · rw [canonKey_pair]
        exact pair_not_mem_loopKeys f m

lemma getEntry_loop (f : Int → Int) (m i : Nat) (h : i < m) :
    getEntry
        ((List.range m).map fun (q : Nat) => (((q : Int), (q : Int) + 1), f (q : Int)))
        ((i : Int), (i : Int) + 1) = f (i : Int) := by
  induction m with
  | zero => omega
  | succ m ih =>
      rw [List.range_succ, List.map_append, List.map_cons, List.map_nil]
      by_cases him : i < m
      · rw [getEntry_append_of_mem]
        · exact ih him
        · rw [canonKey_pair]
          simp only [couplingKeys, List.map_map, List.mem_map, Function.comp, List.mem_range]
          exact ⟨i, him, rfl⟩
      · have hi : i = m := by omega
        subst hi
        rw [getEntry_append_of_not_mem]
        · simp [getEntry, canonKey_pair]
        · rw [canonKey_pair]
          exact pair_not_mem_loopKeys f i

lemma init_ok (n l mi ma : Int) (c : AlternatingSectorChain)
    (h : init n l mi ma = Except.ok c) :
    0 ≤ mi ∧ 0 ≤ ma ∧ 1 ≤ n ∧ 2 ≤ l ∧ c = ⟨n, l, -mi, -ma⟩ := by
  unfold init at h
  by_cases h1 : mi < 0 ∨ ma < 0
  · rw [if_pos h1] at h
    exact absurd h (by simp)
  · rw [if_neg h1] at h
    by_cases h2 : n < 1
    · rw [if_pos h2] at h
      exact absurd h (by simp)
    · rw [if_neg h2] at h
      by_cases h3 : l < 2
      · rw [if_pos h3] at h
        exact absurd h (by simp)
      · rw [if_neg h3] at h
        push_neg at h1
        exact ⟨h1.1, h1.2, by omega, by omega, (Except.ok.inj h).symm⟩

lemma strengthAt_eq (n l mi ma q : Int) :
    strengthAt ⟨n, l, -mi, -ma⟩ q =
      if Int.emod (Int.fdiv q l) 2 = 0 then -ma else -mi := by
  by_cases h : Int.emod (Int.fdiv q l) 2 = 0 <;> simp [strengthAt, h]

lemma to_ising_J_false (c : AlternatingSectorChain) :
    (to_ising c false).2.1 =
      ((List.range (c.N - 1).toNat).map fun (q : Nat) =>
        (((q : Int), (q : Int) + 1), strengthAt c (q : Int))) := by
  unfold to_ising
  rw [chainLoop_eq (fun q => strengthAt c q)]
  rfl

lemma to_ising_J_true (c : AlternatingSectorChain) :
    (to_ising c true).2.1 =
      setEntry
        ((List.range (c.N - 1).toNat).map fun (q : Nat) =>
          (((q : Int), (q : Int) + 1), strengthAt c (q : Int)))
        (c.N - 1, 0) (strengthAt c (c.N - 1)) := by
  unfold to_ising
  rw [chainLoop_eq (fun q => strengthAt c q)]
  rfl

/-- Claim C2: for every validly constructed chain, `to_ising` gives each
chain coupling `J[(i, i+1)]`, `0 ≤ i ≤ N-2`, the value `-max_strength` when
`i // L` is even and `-min_strength` when `i // L` is odd; with the
periodic flag the wraparound coupling `J[(N-1, 0)]` follows the same rule
at index `N-1`; no other couplings appear; the field is empty and the
offset is 0. -/
theorem C2_to_ising_structure (n l mi ma : Int) (pbc : Bool)
    (c : AlternatingSectorChain) (hc : init n l mi ma = Except.ok c) :
    (∀ i : Nat, (i : Int) ≤ n - 2 →
        getEntry (to_ising c pbc).2.1 ((i : Int), (i : Int) + 1) =
          if Int.emod (Int.fdiv (i : Int) l) 2 = 0 then -ma else -mi) ∧
    (pbc = true →
        getEntry (to_ising c pbc).2.1 (n - 1, 0) =
          if Int.emod (Int.fdiv (n - 1) l) 2 = 0 then -ma else -mi) ∧
    (∀ k ∈ couplingKeys (to_ising c pbc).2.1,
        (∃ i : Nat, (i : Int) ≤ n - 2 ∧ k = ((i : Int), (i : Int) + 1)) ∨
          (pbc = true ∧ k = canonKey (n - 1, 0))) ∧
    (to_ising c pbc).1 = [] ∧ (to_ising c pbc).2.2 = 0 := by
  obtain ⟨hmi, hma, hn, hl, hceq⟩ := init_ok n l mi ma c hc
  subst hceq
  refine ⟨?_, ?_, ?_, by cases pbc <;> rfl, by cases pbc <;> rfl⟩
  · intro i hi
    have him : i < (n - 1).toNat := by omega
    cases pbc with
    | false =>
        rw [to_ising_J_false]
        dsimp only
        rw [getEntry_loop _ _ _ him, strengthAt_eq]
    | true =>
        rw [to_ising_J_true]
        dsimp only
        by_cases hcol : canonKey ((i : Int), (i : Int) + 1) = canonKey (n - 1, 0)
        · have hcol' := hcol
          rw [canonKey_pair, canonKey_wrap n hn, Prod.mk.injEq] at hcol'
          have hi0 : (i : Int) = 0 := hcol'.1
          have hn2 : n = 2 := by omega
          rw [getEntry_setEntry_same _ _ _ _ hcol]
          rw [strengthAt_eq, hn2, hi0]
          have f1 : Int.fdiv (2 - 1) l = 0 := by
            rw [show (2 : Int) - 1 = 1 from rfl, Int.fdiv_eq_ediv 1 (by omega)]
            exact Int.ediv_eq_zero_of_lt (by omega) (by omega)
          have f0 : Int.fdiv 0 l = 0 := Int.zero_fdiv l
          rw [f1, f0]
        · rw [getEntry_setEntry_ne _ _ _ _ hcol]
          rw [getEntry_loop _ _ _ him, strengthAt_eq]
  · intro hpbc
    subst hpbc
    rw [to_ising_J_true]
    dsimp only
    rw [getEntry_setEntry_same _ _ _ _ rfl, strengthAt_eq]
  · intro k hk
    cases pbc with
    | false =>
        rw [to_ising_J_false] at hk
        simp only [couplingKeys, List.map_map, List.mem_map, Function.comp,
          List.mem_range] at hk
        obtain ⟨q, hq, hkq⟩ := hk
        exact Or.inl ⟨q, by omega, hkq.symm⟩
    | true =>
        rw [to_ising_J_true] at hk
        rcases couplingKeys_setEntry _ _ _ k hk with h | h
        · simp only [couplingKeys, List.map_map, List.mem_map, Function.comp,
            List.mem_range] at h
          obtain ⟨q, hq, hkq⟩ := h
          exact Or.inl ⟨q, by omega, hkq.symm⟩
        · exact Or.inr ⟨rfl, h⟩

/-- Witness for C2 at `AlternatingSectorChain(6, 3, 1, 5)` with the
periodic flag set. -/
theorem C2_to_ising_structure_witness :
    (∀ i : Nat, (i : Int) ≤ 6 - 2 →
        getEntry (to_ising ⟨6, 3, -1, -5⟩ true).2.1 ((i : Int), (i : Int) + 1) =
          if Int.emod (Int.fdiv (i : Int) 3) 2 = 0 then -5 else -1) ∧
    (true = true →
        getEntry (to_ising ⟨6, 3, -1, -5⟩ true).2.1 (6 - 1, 0) =
          if Int.emod (Int.fdiv (6 - 1) 3) 2 = 0 then -5 else -1) ∧
    (∀ k ∈ couplingKeys (to_ising ⟨6, 3, -1, -5⟩ true).2.1,
        (∃ i : Nat, (i : Int) ≤ 6 - 2 ∧ k = ((i : Int), (i : Int) + 1)) ∨
          (true = true ∧ k = canonKey (6 - 1, 0))) ∧
    (to_ising (⟨6, 3, -1, -5⟩ : AlternatingSectorChain) true).1 = [] ∧
    (to_ising (⟨6, 3, -1, -5⟩ : AlternatingSectorChain) true).2.2 = 0 :=
  C2_to_ising_structure 6 3 1 5 true ⟨6, 3, -1, -5⟩ rfl

lemma quboEnergy_nil (x : Int → Int) : quboEnergy [] x = 0 := rfl

lemma quboEnergy_cons (e : (Int × Int) × Int) (Q : Coupling) (x : Int → Int) :
    quboEnergy (e :: Q) x = e.2 * x e.1.1 * x e.1.2 + quboEnergy Q x := by
  simp [quboEnergy]

lemma x_canonKey (x : Int → Int) (k : Int × Int) :
    x (canonKey k).1 * x (canonKey k).2 = x k.1 * x k.2 := by
  by_cases h : k.2 < k.1 <;> simp [canonKey, h] <;> ring

lemma quboEnergy_addEntry (Q : Coupling) (k : Int × Int) (v : Int) (x : Int → Int) :
    quboEnergy (addEntry Q k v) x = quboEnergy Q x + v * x k.1 * x k.2 := by
  induction Q with
  | nil =>
      rw [show addEntry [] k v = [(canonKey k, v)] from rfl, quboEnergy_cons,
        quboEnergy_nil]
      dsimp only
      simp only [mul_assoc, x_canonKey]
      ring
  | cons e rest ih =>
      obtain ⟨k₀, w⟩ := e
      by_cases hk : k₀ = canonKey k
      · rw [show addEntry ((k₀, w) :: rest) k v = (k₀, w + v) :: rest from by
          simp [addEntry, hk]]
        rw [quboEnergy_cons, quboEnergy_cons]
        subst hk
        dsimp only
        simp only [mul_assoc, x_canonKey]
        ring
      · rw [show addEntry ((k₀, w) :: rest) k v = (k₀, w) :: addEntry rest k v from by
          simp [addEntry, hk]]
        rw [quboEnergy_cons, quboEnergy_cons, ih]
        ring

lemma jStep_energy (acc : Coupling × Int) (e : (Int × Int) × Int) (x : Int → Int) :
    quboEnergy (jStep acc e).1 x + (jStep acc e).2 =
      quboEnergy acc.1 x + acc.2 +
        (4 * e.2 * x e.1.1 * x e.1.2 - 2 * e.2 * x e.1.1 * x e.1.1
          - 2 * e.2 * x e.1.2 * x e.1.2 + e.2) := by
  unfold jStep
  rw [show (addEntry
      (addEntry (addEntry acc.1 (e.1.1, e.1.2) (4 * e.2)) (e.1.1, e.1.1) (-(2 * e.2)))
      (e.1.2, e.1.2) (-(2 * e.2)), acc.2 + e.2).1 =
    addEntry
      (addEntry (addEntry acc.1 (e.1.1, e.1.2) (4 * e.2)) (e.1.1, e.1.1) (-(2 * e.2)))
      (e.1.2, e.1.2) (-(2 * e.2)) from rfl]
  rw [quboEnergy_addEntry, quboEnergy_addEntry, quboEnergy_addEntry]
  ring

lemma hStep_energy (acc : Coupling × Int) (e : Int × Int) (x : Int → Int) :
    quboEnergy (hStep acc e).1 x + (hStep acc e).2 =
      quboEnergy acc.1 x + acc.2 + (2 * e.2 * x e.1 * x e.1 - e.2) := by
  unfold hStep
  rw [show (addEntry acc.1 (e.1, e.1) (2 * e.2), acc.2 - e.2).1 =
    addEntry acc.1 (e.1, e.1) (2 * e.2) from rfl]
  rw [quboEnergy_addEntry]
  ring

lemma jfold_energy (x : Int → Int) : ∀ (J : Coupling) (acc : Coupling × Int),
    quboEnergy (J.foldl jStep acc).1 x + (J.foldl jStep acc).2 =
      quboEnergy acc.1 x + acc.2 +
        (J.map fun e => 4 * e.2 * x e.1.1 * x e.1.2 - 2 * e.2 * x e.1.1 * x e.1.1
          - 2 * e.2 * x e.1.2 * x e.1.2 + e.2).sum := by
  intro J
  induction J with
  | nil => intro acc; simp
  | cons e J ih =>
      intro acc
      rw [List.foldl_cons, ih (jStep acc e), jStep_energy, List.map_cons, List.sum_cons]
      ring

lemma hfold_energy (x : Int → Int) : ∀ (hf : IsingField) (acc : Coupling × Int),
    quboEnergy (hf.foldl hStep acc).1 x + (hf.foldl hStep acc).2 =
      quboEnergy acc.1 x + acc.2 +
        (hf.map fun e => 2 * e.2 * x e.1 * x e.1 - e.2).sum := by
  intro hf
  induction hf with
  | nil => intro acc; simp
  | cons e hf ih =>
      intro acc
      rw [List.foldl_cons, ih (hStep acc e), hStep_energy, List.map_cons, List.sum_cons]
      ring

lemma term_spin (v xi xj : Int) (hxi : xi = 0 ∨ xi = 1) (hxj : xj = 0 ∨ xj = 1) :
    4 * v * xi * xj - 2 * v * xi * xi - 2 * v * xj * xj + v =
      v * to_spin xi * to_spin xj := by
  rcases hxi with h | h <;> rcases hxj with h' | h' <;> subst h <;> subst h' <;>
    simp [to_spin] <;> ring

lemma hterm_spin (v xi : Int) (hxi : xi = 0 ∨ xi = 1) :
    2 * v * xi * xi - v = v * to_spin xi := by
  rcases hxi with h | h <;> subst h <;> simp [to_spin] <;> ring

lemma quboOfIsing_energy (hf : IsingField) (J : Coupling) (x : Int → Int)
    (hx : ∀ i, x i = 0 ∨ x i = 1) :
    quboEnergy (quboOfIsing hf J).1 x + (quboOfIsing hf J).2 =
      isingEnergy hf J (fun i => to_spin (x i)) := by
  unfold quboOfIsing
  rw [hfold_energy, jfold_energy]
  rw [quboEnergy_nil]
  unfold isingEnergy
  have hJ : (J.map fun e => 4 * e.2 * x e.1.1 * x e.1.2 - 2 * e.2 * x e.1.1 * x e.1.1
      - 2 * e.2 * x e.1.2 * x e.1.2 + e.2) =
      J.map fun e => e.2 * to_spin (x e.1.1) * to_spin (x e.1.2) :=
    List.map_congr_left fun e _ => term_spin e.2 _ _ (hx e.1.1) (hx e.1.2)
  have hH : (hf.map fun e => 2 * e.2 * x e.1 * x e.1 - e.2) =
      hf.map fun e => e.2 * to_spin (x e.1) :=
    List.map_congr_left fun e _ => hterm_spin e.2 _ (hx e.1)
  rw [hJ, hH]
  ring

/-- Claim C3: for every validly constructed instance and every binary
assignment `x`, the QUBO energy at `x` plus the QUBO offset equals the
Ising energy at the spin assignment `to_spin ∘ x` plus the Ising offset. -/
theorem C3_qubo_ising_energy_agree (n l mi ma : Int) (pbc : Bool)
    (c : AlternatingSectorChain) (_hc : init n l mi ma = Except.ok c)
    (x : Int → Int) (hx : ∀ i, x i = 0 ∨ x i = 1) :
    quboEnergy (to_qubo c pbc).1 x + (to_qubo c pbc).2 =
      isingEnergy (to_ising c pbc).1 (to_ising c pbc).2.1 (fun i => to_spin (x i)) +
        (to_ising c pbc).2.2 := by
  unfold to_qubo
  rw [show (((quboOfIsing (to_ising c pbc).1 (to_ising c pbc).2.1).1,
      (quboOfIsing (to_ising c pbc).1 (to_ising c pbc).2.1).2 + (to_ising c pbc).2.2) :
      Coupling × Int).1 =
    (quboOfIsing (to_ising c pbc).1 (to_ising c pbc).2.1).1 from rfl]
  rw [show (((quboOfIsing (to_ising c pbc).1 (to_ising c pbc).2.1).1,
      (quboOfIsing (to_ising c pbc).1 (to_ising c pbc).2.1).2 + (to_ising c pbc).2.2) :
      Coupling × Int).2 =
    (quboOfIsing (to_ising c pbc).1 (to_ising c pbc).2.1).2 + (to_ising c pbc).2.2 from rfl]
  rw [← quboOfIsing_energy (to_ising c pbc).1 (to_ising c pbc).2.1 x hx]
  ring

/-- Witness for C3 at `AlternatingSectorChain(6, 3, 1, 5)` without periodic
boundary and the all-ones binary assignment. -/
theorem C3_qubo_ising_energy_agree_witness :
    quboEnergy (to_qubo ⟨6, 3, -1, -5⟩ false).1 (fun _ => 1) +
        (to_qubo ⟨6, 3, -1, -5⟩ false).2 =
      isingEnergy (to_ising ⟨6, 3, -1, -5⟩ false).1 (to_ising ⟨6, 3, -1, -5⟩ false).2.1
          (fun i => to_spin ((fun _ => 1) i)) +
        (to_ising ⟨6, 3, -1, -5⟩ false).2.2 :=
  C3_qubo_ising_energy_agree 6 3 1 5 false ⟨6, 3, -1, -5⟩ rfl
    (fun _ => 1) (fun _ => Or.inr rfl)
